import Mathlib

/-!
# elm-const-gen: key conversion and module rendering

A shallow embedding of `main.go`: the conversion of environment keys to Elm
identifiers, the sorted rendering of the module text through the two
templates, and the exit paths of `main`.

Go strings are modelled by their sequence of runes (`Str`).  The library
functions used by `main` are modelled on ASCII: the case mappings change the
ASCII letters only, and the title caser knows the ASCII letters, the digits,
the underscore, the three mid-word runes (full stop, colon, apostrophe) and
takes every other rune for a word break.
-/

set_option maxRecDepth 100000

namespace ElmConstGen

/-- A Go string, as the sequence of its runes. -/
abbrev Str := List Char

/-! ## Library functions -/

/-- Lower-case mapping of a rune (`unicode.ToLower`) on ASCII. -/
def toLowerRune : Char → Char
  | 'A' => 'a' | 'B' => 'b' | 'C' => 'c' | 'D' => 'd' | 'E' => 'e' | 'F' => 'f'
  | 'G' => 'g' | 'H' => 'h' | 'I' => 'i' | 'J' => 'j' | 'K' => 'k' | 'L' => 'l'
  | 'M' => 'm' | 'N' => 'n' | 'O' => 'o' | 'P' => 'p' | 'Q' => 'q' | 'R' => 'r'
  | 'S' => 's' | 'T' => 't' | 'U' => 'u' | 'V' => 'v' | 'W' => 'w' | 'X' => 'x'
  | 'Y' => 'y' | 'Z' => 'z'
  | c => c

/-- Title-case mapping of a rune (`unicode.ToTitle`) on ASCII. -/
def toTitleRune : Char → Char
  | 'a' => 'A' | 'b' => 'B' | 'c' => 'C' | 'd' => 'D' | 'e' => 'E' | 'f' => 'F'
  | 'g' => 'G' | 'h' => 'H' | 'i' => 'I' | 'j' => 'J' | 'k' => 'K' | 'l' => 'L'
  | 'm' => 'M' | 'n' => 'N' | 'o' => 'O' | 'p' => 'P' | 'q' => 'Q' | 'r' => 'R'
  | 's' => 'S' | 't' => 'T' | 'u' => 'U' | 'v' => 'V' | 'w' => 'W' | 'x' => 'X'
  | 'y' => 'Y' | 'z' => 'Z'
  | c => c

/-- Go `strings.ToLower`: every rune is mapped on its own. -/
def toLower (s : Str) : Str := s.map toLowerRune

/-- Go `strings.Split(s, sep)` for a separator of one rune: the pieces of `s`
between the occurrences of `sep`, empty pieces included. -/
def split (sep : Char) : Str → List Str
  | [] => [[]]
  | c :: cs =>
    if c = sep then [] :: split sep cs
    else
      match split sep cs with
      | [] => [[c]]
      | s :: ss => (c :: s) :: ss

/-- A cased rune: one that a case mapping changes (an ASCII letter). -/
def isCased (c : Char) : Bool := toLowerRune c != c || toTitleRune c != c

/-- A decimal digit. -/
def isDigit (c : Char) : Bool := "0123456789".toList.contains c

/-- A mid-word rune (word-break class MidNumLet, MidLetter or Single_Quote):
the full stop, the colon and the apostrophe. -/
def isMid (c : Char) : Bool := c == '.' || c == ':' || c == '\x27'

/-- The runes that end a word for the title caser: everything that is neither
a letter, nor of word-break class Numeric or ExtendNumLet, nor a mid-word
rune. -/
def isBreak (c : Char) : Bool := !(isCased c || isDigit c || c == '_' || isMid c)

/-- The loop of the title caser of `golang.org/x/text/cases`
(`titleCaser.Transform`).  `isMidWord` tells that a word is open and `wasMid`
that the rune before was a mid-word rune.  Two mid-word runes in a row close
the word.  A cased rune is title-cased when no word is open and lower-cased
inside a word; any other rune is copied, and closes the word when it is a
break. -/
def titleLoop : Bool → Bool → Str → Str
  | _, _, [] => []
  | isMidWord, wasMid, c :: cs =>
    let isMidWord := if wasMid && isMid c then false else isMidWord
    if isCased c then
      if !isMidWord then toTitleRune c :: titleLoop true (isMid c) cs
      else toLowerRune c :: titleLoop true (isMid c) cs
    else if isBreak c then c :: titleLoop false (isMid c) cs
    else c :: titleLoop isMidWord (isMid c) cs

/-- The call `cases.Title(language.AmericanEnglish).String(e)`. -/
def title (e : Str) : Str := titleLoop false false e

/-- Go's order on strings (`<=`), which `sort.Strings` sorts by: byte by byte,
a proper prefix first.  On well-formed UTF-8 this is the order rune by rune. -/
def strLe : Str → Str → Bool
  | [], _ => true
  | _ :: _, [] => false
  | a :: as, b :: bs => if a < b then true else if b < a then false else strLe as bs

/-- Go `sort.Strings`: the ascending rearrangement of the slice. -/
def sortStrings (l : List Str) : List Str :=
  List.insertionSort (fun a b => strLe a b = true) l

/-- Go `strings.Join`. -/
def join (sep : Str) : List Str → Str
  | [] => []
  | [a] => a
  | a :: b :: rest => a ++ sep ++ join sep (b :: rest)

/-! ## Key conversion (the body of the loop over `envs`) -/

/-- The identifier built from a raw key `k` (`main.go`, lines 76 to 84).
`none` stands for the panic of `ks[0]` on an empty slice. -/
def newKey (k : Str) : Option Str :=
  let ks := split '_' (toLower k)
  match ks.head? with
  | none => none
  | some k0 =>
    let newK := k0
    if ks.length > 1 then
      some ((ks.drop 1).foldl (fun acc e => acc ++ title e) newK)
    else
      some newK

/-! ## Templates (`text/template`) -/

/-- A parsed template: literal text and field actions (a field name between double braces). -/
inductive Node where
  | text (s : Str)
  | field (name : Str)
  deriving DecidableEq, Repr

/-- Remove the blanks around the body of an action. -/
def trimBlanks (s : Str) : Str :=
  ((s.dropWhile (· == ' ')).reverse.dropWhile (· == ' ')).reverse

/-- The body of an action, of which only the form `.Field` is supported. -/
def parseAction (body : Str) : Option Node :=
  match trimBlanks body with
  | '.' :: name => if name = [] ∨ ' ' ∈ name then none else some (Node.field name)
  | _ => none

/-- Literal text read so far, as a node (nothing when it is empty). -/
def textNode (acc : Str) : List Node :=
  if acc = [] then [] else [Node.text acc.reverse]

/-- The scanner of `template.Parse`: text up to the opening double brace, then an action up to the closing one.  `inAction` tells which of the two is being read and `acc` holds the
runes read so far, last first.  `none` is a parse error. -/
def parseLoop : Bool → Str → Str → Option (List Node)
  | false, acc, [] => some (textNode acc)
  | true, _, [] => none
  | false, acc, '\x7b' :: '\x7b' :: rest =>
    (parseLoop true [] rest).map (fun ns => textNode acc ++ ns)
  | false, acc, c :: rest => parseLoop false (c :: acc) rest
  | true, acc, '\x7d' :: '\x7d' :: rest =>
    match parseAction acc.reverse with
    | none => none
    | some n => (parseLoop false [] rest).map (fun ns => n :: ns)
  | true, acc, c :: rest => parseLoop true (c :: acc) rest

/-- Go `template.New(name).Parse(text)`. -/
def parseTemplate (text : Str) : Option (List Node) := parseLoop false [] text

/-- Go `Template.Execute`: the text is copied and every field action is
replaced by the field's string, unchanged; a field the data does not have is
an error. -/
def execute (data : Str → Option Str) : List Node → Except Str Str
  | [] => .ok []
  | Node.text s :: ns =>
    match execute data ns with
    | .ok out => .ok (s ++ out)
    | .error err => .error err
  | Node.field name :: ns =>
    match data name with
    | none => .error ("can't evaluate field ".toList ++ name)
    | some v =>
      match execute data ns with
      | .ok out => .ok (v ++ out)
      | .error err => .error err

/-- The constant `moduleTemplate`. -/
def moduleTemplate : Str :=
  ("\x7b-\n" ++
   "-----------\n" ++
   "-- WARNING:\n" ++
   "-- This is a generated file and any manual edits may be lost without warning.\n" ++
   "-----------\n" ++
   "-\x7d\n" ++
   "module \x7b\x7b .Name \x7d\x7d exposing (\x7b\x7b .ExposeList \x7d\x7d)\n" ++
   "\x7b\x7b .FunBlocks \x7d\x7d").toList

/-- The constant `funTemplate`. -/
def funTemplate : Str :=
  ("\n" ++
   "\n" ++
   "\n" ++
   "\x7b\x7b .Name \x7d\x7d : String\n" ++
   "\x7b\x7b .Name \x7d\x7d =\n" ++
   "    \"\x7b\x7b .Value \x7d\x7d\"\n").toList

/-- The data of the module template. -/
structure Module where
  Name : Str
  ExposeList : Str
  FunBlocks : Str
  deriving DecidableEq

/-- The data of the template of one binding. -/
structure FunBlock where
  Name : Str
  Value : Str
  deriving DecidableEq

/-- Field access on a `Module`, by name. -/
def Module.field (m : Module) (name : Str) : Option Str :=
  if name = "Name".toList then some m.Name
  else if name = "ExposeList".toList then some m.ExposeList
  else if name = "FunBlocks".toList then some m.FunBlocks
  else none

/-- Field access on a `FunBlock`, by name. -/
def FunBlock.field (fb : FunBlock) (name : Str) : Option Str :=
  if name = "Name".toList then some fb.Name
  else if name = "Value".toList then some fb.Value
  else none

/-! ## The body of `main` -/

/-- A Go `map[string]string`, by what a lookup finds. -/
abbrev GoMap := Str → Option Str

/-- The assignment `m[k] = v`. -/
def GoMap.set (m : GoMap) (k v : Str) : GoMap := fun k' => if k' = k then some v else m k'

/-- The lookup `m[k]`, which is the empty string for a missing key. -/
def GoMap.get (m : GoMap) (k : Str) : Str := (m k).getD []

/-- The variables `elmKeys` and `elmMap`. -/
structure Conv where
  elmKeys : List Str
  elmMap : GoMap

/-- The loop over `envs` (lines 75 to 88), the entries taken in the order in
which `range` visits the map.  `none` is the panic of `newKey`. -/
def convert : Conv → List (Str × Str) → Option Conv
  | st, [] => some st
  | st, (k, v) :: rest =>
    match newKey k with
    | none => none
    | some newK =>
      convert { elmKeys := st.elmKeys ++ [newK], elmMap := st.elmMap.set newK v } rest

/-- The loop over the sorted `elmKeys` (lines 94 to 107), writing to the
builder `funBlocks`. -/
def renderFuns (funT : List Node) (elmMap : GoMap) : Str → List Str → Except Str Str
  | funBlocks, [] => .ok funBlocks
  | funBlocks, k :: ks =>
    let v := elmMap.get k
    let fb : FunBlock := { Name := k, Value := v }
    match execute fb.field funT with
    | .error err => .error err
    | .ok out => renderFuns funT elmMap (funBlocks ++ out) ks

/-- What lines 71 to 124 come to. -/
inductive Rendered where
  | panic
  | error (err : Str)
  | ok (elmKeys : List Str) (text : Str)
  deriving DecidableEq

/-- Lines 71 to 124 of `main`: conversion of the keys, sorting, and the two
template executions. -/
def render (modT funT : List Node) (modName : Str) (envs : List (Str × Str)) : Rendered :=
  match convert { elmKeys := [], elmMap := fun _ => none } envs with
  | none => .panic
  | some st =>
    let elmKeys := sortStrings st.elmKeys
    match renderFuns funT st.elmMap [] elmKeys with
    | .error err => .error err
    | .ok funBlocks =>
      let m : Module :=
        { Name := modName, ExposeList := join ", ".toList elmKeys, FunBlocks := funBlocks }
      match execute m.field modT with
      | .error err => .error err
      | .ok module => .ok elmKeys module

/-- The command-line flags. -/
structure Flags where
  envFile : Str
  srcDir : Str
  modName : Str

/-- What `main` is given by its collaborators: the file system, the parser of
the env file and `filepath.Clean`. -/
structure Sys where
  openEnv : Str → Except Str Unit
  envs : Except Str (List (Str × Str))
  clean : Str → Str
  create : Str → Except Str Unit
  write : Str → Str → Except Str Unit

/-- An argument of `fmt.Printf`. -/
inductive Arg where
  | str (s : Str)
  | int (n : Nat)
  deriving DecidableEq

/-- What `main` does to the outside. -/
inductive Effect where
  | printf (format : String) (args : List Arg)
  | create (path : Str)
  | write (path : Str) (bytes : Str)
  deriving DecidableEq

/-- How the process ends. -/
inductive Exit where
  | code (n : Nat)
  | panic
  deriving DecidableEq

/-- A run of `main`: its effects in order, and its end. -/
structure Outcome where
  effects : List Effect
  exit : Exit
  deriving DecidableEq

/-- The variable `modT`, `template.Must(template.New("module").Parse(moduleTemplate))`;
`none` is the panic of `Must`. -/
def modT : Option (List Node) := parseTemplate moduleTemplate

/-- The variable `funT`, likewise from `funTemplate`. -/
def funT : Option (List Node) := parseTemplate funTemplate

/-- The function `main`. -/
def main (sys : Sys) (fl : Flags) : Outcome :=
  match modT, funT with
  | some modT, some funT =>
    match sys.openEnv fl.envFile with
    | .error err =>
      ⟨[.printf "cannot open env file: %v - %v\n" [.str fl.envFile, .str err]], .code 1⟩
    | .ok _ =>
      match sys.envs with
      | .error err =>
        ⟨[.printf "cannot parse env file: %v - %v\n" [.str fl.envFile, .str err]], .code 1⟩
      | .ok envs =>
        if envs.length = 0 then
          ⟨[.printf "no envs to parse from file: %v - exiting\n" [.str fl.envFile]], .code 0⟩
        else
          match render modT funT fl.modName envs with
          | .panic => ⟨[], .panic⟩
          | .error err =>
            ⟨[.printf "unrecoverable error processing env vars: %v - %v\n"
                [.str fl.envFile, .str err]], .code 1⟩
          | .ok elmKeys module =>
            let outPath := sys.clean (fl.srcDir ++ "/".toList ++ fl.modName ++ ".elm".toList)
            match sys.create outPath with
            | .error err =>
              ⟨[.create outPath,
                .printf "cannot open and create output file %v - %v\n" [.str outPath, .str err]],
               .code 1⟩
            | .ok _ =>
              match sys.write outPath module with
              | .error err =>
                ⟨[.create outPath, .write outPath module,
                  .printf "cannot write output to file %v - %v\n" [.str outPath, .str err]],
                 .code 1⟩
              | .ok _ =>
                ⟨[.create outPath, .write outPath module,
                  .printf "%v vars from %v were exported to %v\n"
                    [.int elmKeys.length, .str fl.envFile, .str outPath]],
                 .code 0⟩
  | _, _ => ⟨[], .panic⟩

/-- The text that `main` renders for the flag `-n` and the parsed entries:
the two templates parsed, then lines 71 to 124. -/
def generate (modName : Str) (envs : List (Str × Str)) : Rendered :=
  match modT, funT with
  | some modT, some funT => render modT funT modName envs
  | _, _ => .panic

/-- Go's strict order on strings (`<`). -/
def strLt (a b : Str) : Bool := !strLe b a

/-! ## The documented shape of the output -/

/-- The fixed warning comment block. -/
def warningBlock : Str :=
  ("\x7b-\n" ++
   "-----------\n" ++
   "-- WARNING:\n" ++
   "-- This is a generated file and any manual edits may be lost without warning.\n" ++
   "-----------\n" ++
   "-\x7d\n").toList

/-- The module declaration line. -/
def moduleLine (modName : Str) (idents : List Str) : Str :=
  "module ".toList ++ modName ++ " exposing (".toList ++ join ", ".toList idents ++ ")\n".toList

/-- The three lines of a binding: type annotation, name, and the value between
double quotes after four spaces. -/
def bindingLines (ident value : Str) : Str :=
  ident ++ " : String\n".toList ++ ident ++ " =\n".toList ++
    "    \"".toList ++ value ++ "\"\n".toList

/-- A binding block: `blanks` blank lines, then the three lines. -/
def blockText (blanks : Nat) (b : Str × Str) : Str :=
  List.replicate blanks '\n' ++ bindingLines b.1 b.2

/-- The module text for a sequence of bindings, with `blanks` blank lines
before every binding. -/
def moduleText (blanks : Nat) (modName : Str) (bindings : List (Str × Str)) : Str :=
  warningBlock ++ moduleLine modName (bindings.map Prod.fst) ++
    (bindings.map (blockText blanks)).flatten

/-- The output format in the words of the specification: two blank lines
before every binding. -/
def specModuleText (modName : Str) (bindings : List (Str × Str)) : Str :=
  moduleText 2 modName bindings

/-- The identifier that the loop over the pieces `ks` of a key builds. -/
def identOf : List Str → Str
  | [] => []
  | k0 :: rest => k0 ++ (rest.map title).flatten

/-- The identifier of a raw key: `newKey` without its failure case. -/
def identifier (k : Str) : Str := identOf (split '_' (toLower k))

/-- The module template, parsed. -/
def modNodes : List Node :=
  [.text (warningBlock ++ "module ".toList), .field "Name".toList,
   .text " exposing (".toList, .field "ExposeList".toList, .text ")\n".toList,
   .field "FunBlocks".toList]

/-- The template of a binding, parsed. -/
def funNodes : List Node :=
  [.text "\n\n\n".toList, .field "Name".toList, .text " : String\n".toList,
   .field "Name".toList, .text " =\n    \"".toList, .field "Value".toList,
   .text "\"\n".toList]

/-- The slice `elmKeys` after sorting, which both the exposing list and the
loop over the bindings are taken from (empty when nothing is rendered). -/
def Rendered.keys : Rendered → List Str
  | .ok elmKeys _ => elmKeys
  | _ => []

/-- An effect on the output file. -/
def Effect.isFile : Effect → Bool
  | .create _ => true
  | .write _ _ => true
  | .printf _ _ => false

/-- The default values of the flags `-e`, `-s` and `-n`. -/
def defaultFlags : Flags :=
  { envFile := ".env".toList, srcDir := "./src".toList, modName := "ConstGen".toList }

/-- Collaborators for which every call succeeds and the env file holds the
entries `envs`. -/
def sysWith (envs : List (Str × Str)) : Sys :=
  { openEnv := fun _ => .ok ()
    envs := .ok envs
    clean := fun path => path
    create := fun _ => .ok ()
    write := fun _ _ => .ok () }

/-- The two colliding entries `FOO_BAR=1` and `FOO__BAR=2`. -/
def collidingEnvs : List (Str × Str) :=
  [("FOO_BAR".toList, "1".toList), ("FOO__BAR".toList, "2".toList)]

/-- The entries `API_BASE_URL=http://x` and `PORT=8080`. -/
def scenarioEnvs : List (Str × Str) :=
  [("API_BASE_URL".toList, "http://x".toList), ("PORT".toList, "8080".toList)]

/-! ## The rule of the specification for key conversion -/

/-- A piece with its first rune upper-cased and the rest unchanged. -/
def upperFirst : Str → Str
  | [] => []
  | c :: cs => toTitleRune c :: cs

/-- A piece with its first letter upper-cased, the runes before that letter
and everything after it unchanged. -/
def upperFirstLetter : Str → Str
  | [] => []
  | c :: cs => if isCased c then toTitleRune c :: cs else c :: upperFirstLetter cs

/-- A piece that starts with a mid-word rune. -/
def startsMid : Str → Bool
  | [] => false
  | c :: _ => isMid c

/-- A piece that is one word for the title caser: it holds no break rune and
no two mid-word runes in a row. -/
def oneWord : Str → Bool
  | [] => true
  | c :: cs => !isBreak c && !(isMid c && startsMid cs) && oneWord cs

/-- A piece that holds a letter. -/
def hasLetter (s : Str) : Bool := s.any isCased

/-- A piece that starts with a letter. -/
def startsWithLetter : Str → Bool
  | [] => false
  | c :: _ => isCased c

/-- Conversion by rule: lower-case the key, split it on the underscore, keep
the first piece and append every later piece after `cap`. -/
def convertByRule (cap : Str → Str) (k : Str) : Str :=
  match split '_' (toLower k) with
  | [] => []
  | k0 :: rest => k0 ++ (rest.map cap).flatten

/-- Key normalisation in the words of the specification: every later piece
has its first character upper-cased. -/
def normalizeSpec (k : Str) : Str := convertByRule upperFirst k

/-! ## Facts about the case mappings -/

theorem toLowerRune_underscore (c : Char) (h : toLowerRune c = '_') : c = '_' := by
  unfold toLowerRune at h
  split at h <;> first | exact h | exact absurd h (by decide)

theorem toTitleRune_underscore (c : Char) (h : toTitleRune c = '_') : c = '_' := by
  unfold toTitleRune at h
  split at h <;> first | exact h | exact absurd h (by decide)

theorem toLowerRune_idem (c : Char) : toLowerRune (toLowerRune c) = toLowerRune c := by
  by_cases h : toLowerRune c = c
  · rw [h, h]
  · unfold toLowerRune at h
    split at h <;> first | rfl | exact absurd rfl h

theorem isMid_not_cased (c : Char) (h : isMid c = true) : isCased c = false := by
  simp only [isMid, Bool.or_eq_true, beq_iff_eq] at h
  rcases h with (h | h) | h <;> (subst h; rfl)

theorem toTitleRune_of_not_cased (c : Char) (h : isCased c = false) : toTitleRune c = c := by
  simp only [isCased, Bool.or_eq_false_iff, bne_eq_false_iff_eq] at h
  exact h.2

/-! ## Facts about `split` and `newKey` -/

theorem split_ne_nil (sep : Char) (s : Str) : split sep s ≠ [] := by
  cases s with
  | nil => simp [split]
  | cons c cs =>
    unfold split
    split
    · simp
    · split <;> simp

theorem split_cons_sep (sep : Char) (s : Str) : split sep (sep :: s) = [] :: split sep s := by
  simp [split]

theorem split_append_sep (sep : Char) (a b : Str) :
    split sep (a ++ sep :: b) = split sep a ++ split sep b := by
  induction a with
  | nil => simp [split]
  | cons c a ih =>
    by_cases hc : c = sep
    · simp [split, hc, ← ih]
    · obtain ⟨s, ss, hs⟩ : ∃ s ss, split sep a = s :: ss := by
        cases h : split sep a with
        | nil => exact absurd h (split_ne_nil sep a)
        | cons s ss => exact ⟨s, ss, rfl⟩
      simp [split, hc, ih, hs]

theorem split_replicate_sep (sep : Char) (n : Nat) (b : Str) :
    split sep (List.replicate n sep ++ b) = List.replicate n [] ++ split sep b := by
  induction n with
  | zero => simp
  | succ n ih => simp [List.replicate_succ, split_cons_sep, ih]

theorem split_no_sep (sep : Char) (s : Str) : ∀ seg ∈ split sep s, sep ∉ seg := by
  induction s with
  | nil => simp [split]
  | cons c cs ih =>
    unfold split
    split
    · intro seg hseg
      rcases List.mem_cons.mp hseg with h | h
      · simp [h]
      · exact ih seg h
    · rename_i hc
      split
      · simp [Ne.symm hc]
      · rename_i s ss hs
        intro seg hseg
        rcases List.mem_cons.mp hseg with h | h
        · subst h
          have := ih s (by simp [hs])
          simp [Ne.symm hc, this]
        · exact ih seg (by simp [hs, h])

theorem foldl_title (l : List Str) (acc : Str) :
    l.foldl (fun acc e => acc ++ title e) acc = acc ++ (l.map title).flatten := by
  induction l generalizing acc with
  | nil => simp
  | cons e l ih => simp [ih]

theorem newKey_eq (k : Str) : newKey k = some (identOf (split '_' (toLower k))) := by
  unfold newKey
  cases h : split '_' (toLower k) with
  | nil => exact absurd h (split_ne_nil _ _)
  | cons k0 rest =>
    cases rest with
    | nil => simp [identOf]
    | cons e rest => simp [identOf, foldl_title]

theorem titleLoop_no_underscore (s : Str) (h : '_' ∉ s) (m w : Bool) :
    '_' ∉ titleLoop m w s := by
  induction s generalizing m w with
  | nil => simp [titleLoop]
  | cons c cs ih =>
    have hc : c ≠ '_' := fun e => h (by simp [e])
    have hcs : '_' ∉ cs := fun e => h (by simp [e])
    have h1 : toTitleRune c ≠ '_' := fun e => hc (toTitleRune_underscore c e)
    have h2 : toLowerRune c ≠ '_' := fun e => hc (toLowerRune_underscore c e)
    simp only [titleLoop]
    split_ifs <;> simp [Ne.symm h1, Ne.symm h2, Ne.symm hc, ih hcs]

theorem identOf_no_underscore (ks : List Str) (h : ∀ seg ∈ ks, '_' ∉ seg) : '_' ∉ identOf ks := by
  cases ks with
  | nil => simp [identOf]
  | cons k0 rest =>
    simp only [identOf, List.mem_append, List.mem_flatten, List.mem_map, not_or]
    refine ⟨h k0 (by simp), ?_⟩
    rintro ⟨l, ⟨e, he, rfl⟩, hl⟩
    exact titleLoop_no_underscore e (h e (by simp [he])) false false hl

theorem identOf_blank_pieces (a b : List Str) (n : Nat) (ha : a ≠ []) :
    identOf (a ++ List.replicate n [] ++ b) = identOf (a ++ b) := by
  cases a with
  | nil => exact absurd rfl ha
  | cons k0 rest =>
    have ht : title [] = [] := rfl
    simp [identOf, List.map_replicate, ht, List.flatten_replicate_nil]

theorem split_mem_of_mem (sep : Char) (s : Str) :
    ∀ seg ∈ split sep s, ∀ c ∈ seg, c ∈ s := by
  induction s with
  | nil => simp [split]
  | cons d cs ih =>
    unfold split
    split
    · intro seg hseg c hc
      rcases List.mem_cons.mp hseg with h | h
      · simp [h] at hc
      · exact List.mem_cons_of_mem _ (ih seg h c hc)
    · split
      · intro seg hseg c hc
        simp at hseg
        subst hseg
        simp at hc
        simp [hc]
      · rename_i s ss hs
        intro seg hseg c hc
        rcases List.mem_cons.mp hseg with h | h
        · subst h
          rcases List.mem_cons.mp hc with h' | h'
          · simp [h']
          · exact List.mem_cons_of_mem _ (ih s (by simp [hs]) c h')
        · exact List.mem_cons_of_mem _ (ih seg (by simp [hs, h]) c hc)

theorem split_of_not_mem (sep : Char) (s : Str) (h : sep ∉ s) : split sep s = [s] := by
  induction s with
  | nil => rfl
  | cons c cs ih =>
    have hc : c ≠ sep := fun e => h (by simp [e])
    have hcs : sep ∉ cs := fun e => h (by simp [e])
    simp [split, hc, ih hcs]

theorem pieces_lowered (k : Str) :
    ∀ seg ∈ split '_' (toLower k), ∀ c ∈ seg, toLowerRune c = c := by
  intro seg hseg c hc
  have hmem : c ∈ toLower k := split_mem_of_mem '_' _ seg hseg c hc
  obtain ⟨d, _, rfl⟩ := List.mem_map.mp hmem
  exact toLowerRune_idem d

theorem titleLoop_open_fixed (s : Str) (hl : ∀ c ∈ s, toLowerRune c = c)
    (hw : oneWord s = true) (w : Bool) (hm : w = true → startsMid s = false) :
    titleLoop true w s = s := by
  induction s generalizing w with
  | nil => rfl
  | cons c cs ih =>
    have hc : toLowerRune c = c := hl c (by simp)
    have hcs : ∀ d ∈ cs, toLowerRune d = d := fun d hd => hl d (by simp [hd])
    simp only [oneWord, Bool.and_eq_true, Bool.not_eq_true', Bool.and_eq_false_iff] at hw
    obtain ⟨⟨hb, hmm⟩, hw'⟩ := hw
    have hreset : (w && isMid c) = false := by
      cases w with
      | false => rfl
      | true => simpa [startsMid] using hm rfl
    have hnext : isMid c = true → startsMid cs = false := by
      intro h
      rcases hmm with h' | h'
      · rw [h] at h'; exact absurd h' (by decide)
      · exact h'
    have ih' := ih hcs hw' (isMid c) hnext
    simp only [titleLoop, hreset, hb]
    by_cases h1 : isCased c = true
    · simp [h1, hc, ih']
    · simp [h1, ih']

theorem titleLoop_eq_upperFirstLetter (s : Str) (hl : ∀ c ∈ s, toLowerRune c = c)
    (hw : oneWord s = true) (w : Bool) : titleLoop false w s = upperFirstLetter s := by
  induction s generalizing w with
  | nil => rfl
  | cons c cs ih =>
    have hcs : ∀ d ∈ cs, toLowerRune d = d := fun d hd => hl d (by simp [hd])
    have hw' : oneWord cs = true := by
      simp only [oneWord, Bool.and_eq_true] at hw
      exact hw.2
    by_cases h1 : isCased c = true
    · have hmid : isMid c = false := by
        cases h : isMid c with
        | false => rfl
        | true => rw [isMid_not_cased c h] at h1; exact absurd h1 (by decide)
      have ho := titleLoop_open_fixed cs hcs hw' false (fun h => absurd h (by decide))
      simp [titleLoop, upperFirstLetter, h1, hmid, ho]
    · simp only [titleLoop, upperFirstLetter, h1, ite_self, Bool.false_eq_true, if_false]
      rw [ih hcs hw']

theorem titleLoop_no_letter (s : Str) (h : hasLetter s = false) (m w : Bool) :
    titleLoop m w s = s := by
  induction s generalizing m w with
  | nil => rfl
  | cons c cs ih =>
    simp only [hasLetter, List.any_cons, Bool.or_eq_false_iff] at h
    have ih' : ∀ m w, titleLoop m w cs = cs := fun m w => ih (by simpa [hasLetter] using h.2) m w
    simp only [titleLoop, h.1, Bool.false_eq_true, if_false]
    split_ifs <;> simp [ih']

theorem upperFirst_no_letter (s : Str) (h : hasLetter s = false) : upperFirst s = s := by
  cases s with
  | nil => rfl
  | cons c cs =>
    simp only [hasLetter, List.any_cons, Bool.or_eq_false_iff] at h
    simp [upperFirst, toTitleRune_of_not_cased c h.1]

theorem upperFirstLetter_eq_upperFirst (s : Str) (h : startsWithLetter s = true) :
    upperFirstLetter s = upperFirst s := by
  cases s with
  | nil => rfl
  | cons c cs =>
    have hc : isCased c = true := h
    simp [upperFirstLetter, upperFirst, hc]

theorem title_eq_upperFirst (s : Str) (hl : ∀ c ∈ s, toLowerRune c = c)
    (h : hasLetter s = false ∨ (startsWithLetter s = true ∧ oneWord s = true)) :
    title s = upperFirst s := by
  rcases h with h | ⟨h1, h2⟩
  · rw [title, titleLoop_no_letter s h, upperFirst_no_letter s h]
  · rw [title, titleLoop_eq_upperFirstLetter s hl h2, upperFirstLetter_eq_upperFirst s h1]

theorem toLower_no_underscore (k : Str) (h : '_' ∉ k) : '_' ∉ toLower k := by
  intro hm
  obtain ⟨d, hd, he⟩ := List.mem_map.mp hm
  exact h (toLowerRune_underscore d he ▸ hd)

/-! ## Key normalisation -/

/-- C10: normalisation cannot fail.  For every key the lower-cased key splits
into at least one piece, so the first piece exists and `newKey` returns an
identifier; the empty key gives the empty identifier. -/
theorem newKey_total (k : Str) :
    split '_' (toLower k) ≠ [] ∧
    (split '_' (toLower k)).head?.isSome = true ∧
    (∃ ident, newKey k = some ident) ∧
    newKey [] = some [] := by
  refine ⟨split_ne_nil _ _, ?_, ⟨_, newKey_eq k⟩, by decide⟩
  cases h : split '_' (toLower k) with
  | nil => exact absurd h (split_ne_nil _ _)
  | cons a l => rfl

/-- C8: empty pieces add nothing.  A run of `n ≥ 1` underscores between `a`
and `b` gives the same identifier as a single underscore (so `FOO__BAR` and
`FOO_BAR` both give `fooBar`), and no identifier holds an underscore. -/
theorem newKey_underscore_runs (a b : Str) (n : Nat) (hn : 1 ≤ n) :
    newKey (a ++ List.replicate n '_' ++ b) = newKey (a ++ ['_'] ++ b) ∧
    (∀ k ident, newKey k = some ident → '_' ∉ ident) ∧
    newKey "FOO__BAR".toList = some "fooBar".toList ∧
    newKey "FOO_BAR".toList = some "fooBar".toList := by
  refine ⟨?_, ?_, by decide, by decide⟩
  · obtain ⟨m, rfl⟩ : ∃ m, n = m + 1 := ⟨n - 1, by omega⟩
    have hl : toLowerRune '_' = '_' := rfl
    have e1 : split '_' (toLower (a ++ List.replicate (m + 1) '_' ++ b)) =
        split '_' (toLower a) ++ List.replicate m [] ++ split '_' (toLower b) := by
      simp only [toLower, List.map_append, List.map_replicate, hl, List.replicate_succ,
        List.cons_append, List.append_assoc, List.map_cons, split_append_sep,
        split_replicate_sep]
    have e2 : split '_' (toLower (a ++ ['_'] ++ b)) =
        split '_' (toLower a) ++ split '_' (toLower b) := by
      simp only [toLower, List.map_append, List.map_cons, List.map_nil, hl,
        List.append_assoc, List.singleton_append, split_append_sep]
    rw [newKey_eq, newKey_eq, e1, e2, identOf_blank_pieces _ _ _ (split_ne_nil _ _)]
  · intro k ident hk
    rw [newKey_eq] at hk
    cases hk
    exact identOf_no_underscore _ (split_no_sep '_' _)

theorem newKey_underscore_runs_witness :
    1 ≤ 3 ∧
    (newKey ("FOO".toList ++ List.replicate 3 '_' ++ "BAR".toList) =
        newKey ("FOO".toList ++ ['_'] ++ "BAR".toList) ∧
      (∀ k ident, newKey k = some ident → '_' ∉ ident) ∧
      newKey "FOO__BAR".toList = some "fooBar".toList ∧
      newKey "FOO_BAR".toList = some "fooBar".toList) :=
  ⟨by decide, newKey_underscore_runs "FOO".toList "BAR".toList 3 (by decide)⟩

/-- C1, as stated, fails: for the key `A_2FA` the rule of the specification
gives `a2fa` and the code gives `a2Fa`; for the key `A_B/C` the rule gives
`aB/c` and the code gives `aB/C`. -/
theorem newKey_ne_normalizeSpec :
    newKey "A_2FA".toList = some "a2Fa".toList ∧
    normalizeSpec "A_2FA".toList = "a2fa".toList ∧
    newKey "A_2FA".toList ≠ some (normalizeSpec "A_2FA".toList) ∧
    newKey "A_B/C".toList = some "aB/C".toList ∧
    normalizeSpec "A_B/C".toList = "aB/c".toList := by
  decide

/-- C1, amended: for every key the identifier is the first piece of the
lower-cased key followed by every later piece title-cased.  When every later
piece is one word (no break rune, no two mid-word runes in a row), a later
piece has its first letter upper-cased and all the rest unchanged, the runes
before that letter included.  When every later piece holds no letter, or
starts with a letter and is one word, this is the rule of the specification:
the first character upper-cased and the rest unchanged.  A key without
underscore gives its lower-cased form, and the three examples hold. -/
theorem newKey_rule (k : Str) :
    newKey k = some (convertByRule title k) ∧
    ((∀ seg ∈ (split '_' (toLower k)).tail, oneWord seg = true) →
      newKey k = some (convertByRule upperFirstLetter k)) ∧
    ((∀ seg ∈ (split '_' (toLower k)).tail,
        hasLetter seg = false ∨ (startsWithLetter seg = true ∧ oneWord seg = true)) →
      newKey k = some (normalizeSpec k)) ∧
    ('_' ∉ k → newKey k = some (toLower k)) ∧
    newKey "API_BASE_URL".toList = some "apiBaseUrl".toList ∧
    newKey "port".toList = some "port".toList ∧
    newKey "A_B_C".toList = some "aBC".toList := by
  have hp := pieces_lowered k
  have key : ∀ cap : Str → Str,
      (∀ seg ∈ (split '_' (toLower k)).tail, title seg = cap seg) →
      newKey k = some (convertByRule cap k) := by
    intro cap hcap
    rw [newKey_eq]
    unfold convertByRule
    cases hs : split '_' (toLower k) with
    | nil => rfl
    | cons k0 rest =>
      rw [hs] at hcap
      have : rest.map title = rest.map cap := List.map_congr_left hcap
      simp [identOf, this]
  refine ⟨key title (fun _ _ => rfl), ?_, ?_, ?_, by decide, by decide, by decide⟩
  · intro hw
    exact key upperFirstLetter (fun seg hseg =>
      titleLoop_eq_upperFirstLetter seg (hp seg (List.mem_of_mem_tail hseg)) (hw seg hseg) false)
  · intro hw
    exact key upperFirst (fun seg hseg =>
      title_eq_upperFirst seg (hp seg (List.mem_of_mem_tail hseg)) (hw seg hseg))
  · intro hu
    rw [newKey_eq, split_of_not_mem '_' _ (toLower_no_underscore k hu)]
    simp [identOf]

theorem newKey_rule_witness :
    (∀ seg ∈ (split '_' (toLower "A_B.C".toList)).tail,
      hasLetter seg = false ∨ (startsWithLetter seg = true ∧ oneWord seg = true)) ∧
    newKey "A_B.C".toList = some (normalizeSpec "A_B.C".toList) ∧
    newKey "A_B.C".toList = some "aB.c".toList ∧
    (∀ seg ∈ (split '_' (toLower "DB_2FA_KEY".toList)).tail, oneWord seg = true) ∧
    newKey "DB_2FA_KEY".toList = some (convertByRule upperFirstLetter "DB_2FA_KEY".toList) ∧
    newKey "DB_2FA_KEY".toList = some "db2FaKey".toList :=
  ⟨by decide, (newKey_rule "A_B.C".toList).2.2.1 (by decide), by decide, by decide,
    (newKey_rule "DB_2FA_KEY".toList).2.1 (by decide), by decide⟩

/-! ## Facts about the order on strings and `sort.Strings` -/

theorem strLe_total (a b : Str) : strLe a b = true ∨ strLe b a = true := by
  induction a generalizing b with
  | nil => simp [strLe]
  | cons x xs ih =>
    cases b with
    | nil => simp [strLe]
    | cons y ys =>
      simp only [strLe]
      by_cases h1 : x < y
      · simp [h1]
      · by_cases h2 : y < x
        · simp [h2]
        · simpa [h1, h2] using ih ys

theorem strLe_trans (a b c : Str) (hab : strLe a b = true) (hbc : strLe b c = true) :
    strLe a c = true := by
  induction a generalizing b c with
  | nil => simp [strLe]
  | cons x xs ih =>
    cases b with
    | nil => simp [strLe] at hab
    | cons y ys =>
      cases c with
      | nil => simp [strLe] at hbc
      | cons z zs =>
        simp only [strLe] at hab hbc ⊢
        by_cases hxy : x < y
        · by_cases hyz : y < z
          · simp [lt_trans hxy hyz]
          · by_cases hzy : z < y
            · simp [hyz, hzy] at hbc
            · have : y = z := le_antisymm (not_lt.mp hzy) (not_lt.mp hyz)
              subst this
              simp [hxy]
        · by_cases hyx : y < x
          · simp [hxy, hyx] at hab
          · have : x = y := le_antisymm (not_lt.mp hyx) (not_lt.mp hxy)
            subst this
            simp only [hxy, if_false] at hab
            by_cases hyz : x < z
            · simp [hyz]
            · by_cases hzy : z < x
              · simp [hyz, hzy] at hbc
              · simp only [hyz, hzy, if_false] at hbc ⊢
                exact ih ys zs hab hbc

theorem strLe_antisymm (a b : Str) (hab : strLe a b = true) (hba : strLe b a = true) :
    a = b := by
  induction a generalizing b with
  | nil =>
    cases b with
    | nil => rfl
    | cons y ys => simp [strLe] at hba
  | cons x xs ih =>
    cases b with
    | nil => simp [strLe] at hab
    | cons y ys =>
      simp only [strLe] at hab hba
      by_cases hxy : x < y
      · simp [hxy, lt_asymm hxy] at hba
      · by_cases hyx : y < x
        · simp [hxy, hyx] at hab
        · have : x = y := le_antisymm (not_lt.mp hyx) (not_lt.mp hxy)
          subst this
          simp only [hxy, if_false] at hab hba
          rw [ih ys hab hba]

theorem sortStrings_sorted (l : List Str) :
    List.Sorted (fun a b => strLe a b = true) (sortStrings l) :=
  @List.sorted_insertionSort _ (fun a b => strLe a b = true) _ ⟨strLe_total⟩ ⟨strLe_trans⟩ l

theorem sortStrings_perm (l : List Str) : (sortStrings l).Perm l :=
  List.perm_insertionSort _ l

theorem sortStrings_eq_of_perm (l₁ l₂ : List Str) (h : l₁.Perm l₂) :
    sortStrings l₁ = sortStrings l₂ :=
  @List.eq_of_perm_of_sorted _ (fun a b => strLe a b = true) ⟨strLe_antisymm⟩ _ _
    (((sortStrings_perm l₁).trans h).trans (sortStrings_perm l₂).symm)
    (sortStrings_sorted l₁) (sortStrings_sorted l₂)

/-! ## Facts about the templates and the two loops -/

theorem funT_eq : funT = some funNodes := by decide

theorem modT_eq : modT = some modNodes := by decide

theorem execute_funNodes (k v : Str) :
    execute (FunBlock.field { Name := k, Value := v }) funNodes = .ok (blockText 3 (k, v)) := by
  have h1 : ("Value".toList = "Name".toList) = False := eq_false (by decide)
  simp [funNodes, execute, FunBlock.field, blockText, bindingLines, h1, List.replicate]

theorem renderFuns_eq (elmMap : GoMap) (ks : List Str) (out : Str) :
    renderFuns funNodes elmMap out ks =
      .ok (out ++ (ks.map (fun k => blockText 3 (k, elmMap.get k))).flatten) := by
  induction ks generalizing out with
  | nil => simp [renderFuns]
  | cons k ks ih => simp [renderFuns, execute_funNodes, ih]

theorem convert_eq (l : List (Str × Str)) (st : Conv) :
    convert st l = some
      { elmKeys := st.elmKeys ++ l.map (fun kv => identifier kv.1),
        elmMap := l.foldl (fun m kv => m.set (identifier kv.1) kv.2) st.elmMap } := by
  induction l generalizing st with
  | nil => simp [convert]
  | cons kv l ih =>
    obtain ⟨k, v⟩ := kv
    simp [convert, newKey_eq, ih, identifier]

theorem execute_modNodes (m : Module) :
    execute m.field modNodes =
      .ok (warningBlock ++ "module ".toList ++ m.Name ++ " exposing (".toList ++ m.ExposeList ++
        ")\n".toList ++ m.FunBlocks) := by
  have h1 : ("ExposeList".toList = "Name".toList) = False := eq_false (by decide)
  have h2 : ("FunBlocks".toList = "Name".toList) = False := eq_false (by decide)
  have h3 : ("FunBlocks".toList = "ExposeList".toList) = False := eq_false (by decide)
  simp [modNodes, execute, Module.field, h1, h2, h3]

theorem generate_eq (modName : Str) (envs : List (Str × Str)) :
    ∃ st, convert { elmKeys := [], elmMap := fun _ => none } envs = some st ∧
      generate modName envs = .ok (sortStrings st.elmKeys)
        (moduleText 3 modName ((sortStrings st.elmKeys).map (fun k => (k, st.elmMap.get k)))) := by
  refine ⟨_, convert_eq envs _, ?_⟩
  simp only [generate, modT_eq, funT_eq, render, convert_eq, renderFuns_eq, execute_modNodes]
  simp [moduleText, moduleLine, Function.comp_def]

theorem generate_eq_explicit (modName : Str) (envs : List (Str × Str)) :
    generate modName envs =
      .ok (sortStrings (envs.map (fun kv => identifier kv.1)))
        (moduleText 3 modName ((sortStrings (envs.map (fun kv => identifier kv.1))).map
          (fun k => (k, GoMap.get
            (envs.foldl (fun m kv => m.set (identifier kv.1) kv.2) (fun _ => none)) k)))) := by
  obtain ⟨st, hst, hg⟩ := generate_eq modName envs
  rw [convert_eq] at hst
  cases hst
  simpa using hg

theorem set_set_comm (m : GoMap) (k₁ v₁ k₂ v₂ : Str) (h : k₁ = k₂ → v₁ = v₂) :
    (m.set k₁ v₁).set k₂ v₂ = (m.set k₂ v₂).set k₁ v₁ := by
  funext k
  show (if k = k₂ then some v₂ else if k = k₁ then some v₁ else m k) =
    (if k = k₁ then some v₁ else if k = k₂ then some v₂ else m k)
  by_cases h1 : k = k₁
  · by_cases h2 : k = k₂
    · rw [if_pos h2, if_pos h1, h (h1.symm.trans h2)]
    · rw [if_neg h2, if_pos h1, if_pos h1]
  · by_cases h2 : k = k₂
    · rw [if_pos h2, if_neg h1, if_pos h2]
    · rw [if_neg h2, if_neg h1, if_neg h1, if_neg h2]

theorem foldl_set_perm (l₁ l₂ : List (Str × Str)) (hp : l₁.Perm l₂)
    (hv : ∀ e₁ ∈ l₁, ∀ e₂ ∈ l₁, identifier e₁.1 = identifier e₂.1 → e₁.2 = e₂.2)
    (m : GoMap) :
    l₁.foldl (fun m kv => m.set (identifier kv.1) kv.2) m =
      l₂.foldl (fun m kv => m.set (identifier kv.1) kv.2) m := by
  induction hp generalizing m with
  | nil => rfl
  | cons x _ ih =>
    simp only [List.foldl_cons]
    exact ih (fun e₁ h₁ e₂ h₂ => hv e₁ (List.mem_cons_of_mem _ h₁) e₂ (List.mem_cons_of_mem _ h₂)) _
  | swap x y l =>
    simp only [List.foldl_cons]
    rw [set_set_comm m (identifier y.1) y.2 (identifier x.1) x.2
      (hv y (by simp) x (by simp))]
  | trans h₁ _ ih₁ ih₂ =>
    rw [ih₁ hv m]
    exact ih₂ (fun e₁ m₁ e₂ m₂ => hv e₁ (h₁.mem_iff.mpr m₁) e₂ (h₁.mem_iff.mpr m₂)) m

theorem generate_keys_sorted (modName : Str) (envs : List (Str × Str)) :
    List.Sorted (fun a b => strLe a b = true) (generate modName envs).keys := by
  rw [generate_eq_explicit]
  exact sortStrings_sorted _

theorem generate_keys_perm (modName : Str) (envs : List (Str × Str)) :
    (generate modName envs).keys.Perm (envs.map (fun kv => identifier kv.1)) := by
  rw [generate_eq_explicit]
  exact sortStrings_perm _

theorem generate_keys_strict (modName : Str) (envs : List (Str × Str))
    (hd : (envs.map (fun kv => identifier kv.1)).Nodup) :
    List.Sorted (fun a b => strLt a b = true) (generate modName envs).keys := by
  have hs := generate_keys_sorted modName envs
  have hn : (generate modName envs).keys.Nodup :=
    (generate_keys_perm modName envs).nodup_iff.mpr hd
  refine (List.Pairwise.and hs hn).imp ?_
  rintro a b ⟨hab, hne⟩
  simp only [strLt, Bool.not_eq_true', Bool.eq_false_iff, ne_eq]
  exact fun hba => hne (strLe_antisymm a b hab hba)

/-! ## The two example inputs, evaluated -/

theorem generate_scenario :
    generate "ConstGen".toList scenarioEnvs =
      .ok ["apiBaseUrl".toList, "port".toList]
        (moduleText 3 "ConstGen".toList
          [("apiBaseUrl".toList, "http://x".toList), ("port".toList, "8080".toList)]) := by
  rw [generate_eq_explicit]
  decide

theorem scenario_text :
    moduleText 3 "ConstGen".toList
        [("apiBaseUrl".toList, "http://x".toList), ("port".toList, "8080".toList)] =
      warningBlock ++
        ("module ConstGen exposing (apiBaseUrl, port)\n" ++
         "\n\n\n" ++
         "apiBaseUrl : String\n" ++
         "apiBaseUrl =\n" ++
         "    \"http://x\"\n" ++
         "\n\n\n" ++
         "port : String\n" ++
         "port =\n" ++
         "    \"8080\"\n").toList := by
  decide

theorem generate_collision :
    generate "ConstGen".toList collidingEnvs =
      .ok ["fooBar".toList, "fooBar".toList]
        (moduleText 3 "ConstGen".toList
          [("fooBar".toList, "2".toList), ("fooBar".toList, "2".toList)]) := by
  rw [generate_eq_explicit]
  decide

theorem generate_collision_reverse :
    generate "ConstGen".toList collidingEnvs.reverse =
      .ok ["fooBar".toList, "fooBar".toList]
        (moduleText 3 "ConstGen".toList
          [("fooBar".toList, "1".toList), ("fooBar".toList, "1".toList)]) := by
  rw [generate_eq_explicit]
  decide

theorem collision_text :
    moduleText 3 "ConstGen".toList
        [("fooBar".toList, "2".toList), ("fooBar".toList, "2".toList)] =
      warningBlock ++
        ("module ConstGen exposing (fooBar, fooBar)\n" ++
         "\n\n\n" ++
         "fooBar : String\n" ++
         "fooBar =\n" ++
         "    \"2\"\n" ++
         "\n\n\n" ++
         "fooBar : String\n" ++
         "fooBar =\n" ++
         "    \"2\"\n").toList := by
  decide

theorem foldl_set_not_mem (l : List (Str × Str)) (m : GoMap) (k : Str)
    (hk : k ∉ l.map (fun kv => identifier kv.1)) :
    (l.foldl (fun m kv => m.set (identifier kv.1) kv.2) m) k = m k := by
  induction l generalizing m with
  | nil => rfl
  | cons kv l ih =>
    simp only [List.map_cons, List.mem_cons, not_or] at hk
    rw [List.foldl_cons, ih _ hk.2]
    simp [GoMap.set, hk.1]

theorem foldl_set_last (l : List (Str × Str)) (m : GoMap) (k : Str)
    (hk : k ∈ l.map (fun kv => identifier kv.1)) :
    ∃ pre kv post, l = pre ++ kv :: post ∧ identifier kv.1 = k ∧
      (l.foldl (fun m kv => m.set (identifier kv.1) kv.2) m) k = some kv.2 ∧
      ∀ e ∈ post, identifier e.1 ≠ k := by
  induction l generalizing m with
  | nil => simp at hk
  | cons kv l ih =>
    by_cases hl : k ∈ l.map (fun kv => identifier kv.1)
    · obtain ⟨pre, kv', post, he, hid, hv, hpost⟩ := ih (m.set (identifier kv.1) kv.2) hl
      exact ⟨kv :: pre, kv', post, by simp [he], hid, by simpa using hv, hpost⟩
    · have hid : identifier kv.1 = k := by
        simp only [List.map_cons, List.mem_cons] at hk
        rcases hk with h | h
        · exact h.symm
        · exact absurd h hl
      refine ⟨[], kv, l, rfl, hid, ?_, ?_⟩
      · rw [List.foldl_cons, foldl_set_not_mem l _ k hl]
        simp [GoMap.set, hid]
      · intro e he h
        exact hl (List.mem_map.mpr ⟨e, he, h⟩)

/-! ## The rendered module -/

/-- C2, at the entries `FOO_BAR=1` and `FOO__BAR=2`: the sorted `elmKeys`,
from which the exposing list and the order of the blocks are taken, hold
`fooBar` twice, so they are sorted but not strictly sorted. -/
theorem generate_collision_keys :
    (generate "ConstGen".toList collidingEnvs).keys = ["fooBar".toList, "fooBar".toList] ∧
    List.Sorted (fun a b => strLe a b = true) (generate "ConstGen".toList collidingEnvs).keys ∧
    ¬ List.Sorted (fun a b => strLt a b = true)
      (generate "ConstGen".toList collidingEnvs).keys := by
  rw [generate_collision]
  decide

/-- C3, as stated, fails: the entries `API_BASE_URL=http://x` and `PORT=8080`
render with three blank lines before every binding, which is not the text of
the documented shape with two. -/
theorem generate_ne_specModuleText :
    generate "ConstGen".toList scenarioEnvs =
      .ok ["apiBaseUrl".toList, "port".toList]
        (moduleText 3 "ConstGen".toList
          [("apiBaseUrl".toList, "http://x".toList), ("port".toList, "8080".toList)]) ∧
    generate "ConstGen".toList scenarioEnvs ≠
      .ok ["apiBaseUrl".toList, "port".toList]
        (specModuleText "ConstGen".toList
          [("apiBaseUrl".toList, "http://x".toList), ("port".toList, "8080".toList)]) := by
  refine ⟨generate_scenario, ?_⟩
  rw [generate_scenario]
  decide

/-- C3, amended: for every module name and all entries the rendered text is
the warning block, the line `module <ModuleName> exposing (<id1>, <id2>, ...)`
and, for every sorted key in order, three blank lines and the three lines of
its binding; the entries `API_BASE_URL=http://x` and `PORT=8080` give the module
exposing `apiBaseUrl, port` with the block of `apiBaseUrl` first. -/
theorem generate_shape (modName : Str) (envs : List (Str × Str)) :
    (∃ st, convert { elmKeys := [], elmMap := fun _ => none } envs = some st ∧
      generate modName envs = .ok (sortStrings st.elmKeys)
        (moduleText 3 modName
          ((sortStrings st.elmKeys).map (fun k => (k, st.elmMap.get k))))) ∧
    generate "ConstGen".toList scenarioEnvs =
      .ok ["apiBaseUrl".toList, "port".toList]
        (warningBlock ++
          ("module ConstGen exposing (apiBaseUrl, port)\n" ++
           "\n\n\n" ++
           "apiBaseUrl : String\n" ++
           "apiBaseUrl =\n" ++
           "    \"http://x\"\n" ++
           "\n\n\n" ++
           "port : String\n" ++
           "port =\n" ++
           "    \"8080\"\n").toList) :=
  ⟨generate_eq modName envs, by rw [generate_scenario, scenario_text]⟩

/-- C4: for every input the identifiers of the exposing list are those of the
emitted blocks, one for one and in the same order: the text is the warning
block, the module line listing the identifiers of a sequence of bindings joined
by a comma and a blank, and then the blocks of just these bindings. -/
theorem generate_exposes_blocks (modName : Str) (envs : List (Str × Str)) :
    ∃ bindings : List (Str × Str),
      bindings.length = envs.length ∧
      generate modName envs = .ok (bindings.map Prod.fst)
        (warningBlock ++
          ("module ".toList ++ modName ++ " exposing (".toList ++
            join ", ".toList (bindings.map Prod.fst) ++ ")\n".toList) ++
          (bindings.map (fun b => blockText 3 (b.1, b.2))).flatten) := by
  refine ⟨(sortStrings (envs.map (fun kv => identifier kv.1))).map
    (fun k => (k, GoMap.get
      (envs.foldl (fun m kv => m.set (identifier kv.1) kv.2) (fun _ => none)) k)), ?_, ?_⟩
  · simp [(sortStrings_perm _).length_eq]
  · rw [generate_eq_explicit]
    simp [moduleText, moduleLine, Function.comp_def]

/-- C5, as stated, fails: the entries `FOO_BAR=1` and `FOO__BAR=2` have
distinct keys, and visiting them in the two possible orders renders two
different texts. -/
theorem generate_order_dependent :
    collidingEnvs.reverse.Perm collidingEnvs ∧
    (collidingEnvs.map Prod.fst).Nodup ∧
    generate "ConstGen".toList collidingEnvs ≠
      generate "ConstGen".toList collidingEnvs.reverse :=
  ⟨List.reverse_perm _, by decide, by rw [generate_collision, generate_collision_reverse]; decide⟩

/-- C5, amended: when entries whose keys give the same identifier carry the
same value (so whenever no two keys collide), the rendered text is the same
for every order in which the entries are visited. -/
theorem generate_perm (modName : Str) (l₁ l₂ : List (Str × Str)) (hp : l₁.Perm l₂)
    (hv : ∀ e₁ ∈ l₁, ∀ e₂ ∈ l₁, newKey e₁.1 = newKey e₂.1 → e₁.2 = e₂.2) :
    generate modName l₁ = generate modName l₂ := by
  have hv' : ∀ e₁ ∈ l₁, ∀ e₂ ∈ l₁, identifier e₁.1 = identifier e₂.1 → e₁.2 = e₂.2 := by
    intro e₁ h₁ e₂ h₂ h
    apply hv e₁ h₁ e₂ h₂
    rw [newKey_eq, newKey_eq]
    exact congrArg some h
  rw [generate_eq_explicit, generate_eq_explicit,
    sortStrings_eq_of_perm _ _ (hp.map (fun kv => identifier kv.1)),
    foldl_set_perm l₁ l₂ hp hv']

theorem generate_perm_witness :
    scenarioEnvs.reverse.Perm scenarioEnvs ∧
    (∀ e₁ ∈ scenarioEnvs.reverse, ∀ e₂ ∈ scenarioEnvs.reverse,
      newKey e₁.1 = newKey e₂.1 → e₁.2 = e₂.2) ∧
    generate "ConstGen".toList scenarioEnvs.reverse = generate "ConstGen".toList scenarioEnvs :=
  ⟨List.reverse_perm _, by decide,
    generate_perm "ConstGen".toList scenarioEnvs.reverse scenarioEnvs (List.reverse_perm _)
      (by decide)⟩

/-- C6, at the entries `FOO_BAR=1` and `FOO__BAR=2`, in either order: the two
keys give the identifier `fooBar`, which is exposed twice and gets two blocks,
both with the value of the entry that was visited last. -/
theorem generate_collision_text :
    newKey "FOO_BAR".toList = some "fooBar".toList ∧
    newKey "FOO__BAR".toList = some "fooBar".toList ∧
    generate "ConstGen".toList collidingEnvs =
      .ok ["fooBar".toList, "fooBar".toList]
        (warningBlock ++
          ("module ConstGen exposing (fooBar, fooBar)\n" ++
           "\n\n\n" ++
           "fooBar : String\n" ++
           "fooBar =\n" ++
           "    \"2\"\n" ++
           "\n\n\n" ++
           "fooBar : String\n" ++
           "fooBar =\n" ++
           "    \"2\"\n").toList) ∧
    generate "ConstGen".toList collidingEnvs.reverse =
      .ok ["fooBar".toList, "fooBar".toList]
        (moduleText 3 "ConstGen".toList
          [("fooBar".toList, "1".toList), ("fooBar".toList, "1".toList)]) :=
  ⟨by decide, by decide, by rw [generate_collision, collision_text], generate_collision_reverse⟩

/-- C7: every block carries its value unchanged between two double quotes.
For all entries the rendered text is the warning block, the module line and
one block per binding, whose last line is four spaces, a double quote, the
value and a double quote; the value of a binding is, rune for rune, the value
of the entry visited last among those whose key gives the identifier; every
entry has a block under its identifier; and an entry whose value holds a
double quote and a backslash is rendered with both as they are. -/
theorem generate_values_verbatim (modName : Str) (envs : List (Str × Str)) :
    (∃ bindings : List (Str × Str),
      generate modName envs = .ok (bindings.map Prod.fst)
        (warningBlock ++ moduleLine modName (bindings.map Prod.fst) ++
          (bindings.map (fun b =>
            "\n\n\n".toList ++ b.1 ++ " : String\n".toList ++ b.1 ++ " =\n".toList ++
              ("    ".toList ++ ['"'] ++ b.2 ++ ['"'] ++ ['\n']))).flatten) ∧
      (∀ b ∈ bindings, ∃ pre kv post, envs = pre ++ kv :: post ∧
        newKey kv.1 = some b.1 ∧ b.2 = kv.2 ∧ ∀ e ∈ post, newKey e.1 ≠ some b.1) ∧
      (∀ kv ∈ envs, ∃ b ∈ bindings, newKey kv.1 = some b.1)) ∧
    generate "ConstGen".toList [("K".toList, ['a', '"', 'b', '\\', 'c'])] =
      .ok ["k".toList]
        (warningBlock ++
          ("module ConstGen exposing (k)\n" ++
           "\n\n\n" ++
           "k : String\n" ++
           "k =\n" ++
           "    \"a\"b\\c\"\n").toList) := by
  refine ⟨⟨(sortStrings (envs.map (fun kv => identifier kv.1))).map
    (fun k => (k, GoMap.get
      (envs.foldl (fun m kv => m.set (identifier kv.1) kv.2) (fun _ => none)) k)), ?_, ?_, ?_⟩,
    ?_⟩
  · rw [generate_eq_explicit]
    simp [moduleText, blockText, bindingLines, Function.comp_def, List.replicate]
  · intro b hb
    obtain ⟨k, hk, rfl⟩ := List.mem_map.mp hb
    have hk' : k ∈ envs.map (fun kv => identifier kv.1) := (sortStrings_perm _).mem_iff.mp hk
    obtain ⟨pre, kv, post, he, hid, hv, hpost⟩ := foldl_set_last envs (fun _ => none) k hk'
    refine ⟨pre, kv, post, he, ?_, ?_, ?_⟩
    · rw [newKey_eq]; exact congrArg some hid
    · simp [GoMap.get, hv]
    · intro e he' h
      rw [newKey_eq] at h
      exact hpost e he' (Option.some.inj h)
  · intro kv hkv
    refine ⟨(identifier kv.1, _), List.mem_map.mpr ⟨identifier kv.1, ?_, rfl⟩, newKey_eq kv.1⟩
    exact (sortStrings_perm _).mem_iff.mpr (List.mem_map.mpr ⟨kv, hkv, rfl⟩)
  · rw [generate_eq_explicit]
    decide

theorem generate_values_verbatim_witness :
    ∃ bindings : List (Str × Str),
      generate "ConstGen".toList scenarioEnvs = .ok (bindings.map Prod.fst)
        (warningBlock ++ moduleLine "ConstGen".toList (bindings.map Prod.fst) ++
          (bindings.map (fun b =>
            "\n\n\n".toList ++ b.1 ++ " : String\n".toList ++ b.1 ++ " =\n".toList ++
              ("    ".toList ++ ['"'] ++ b.2 ++ ['"'] ++ ['\n']))).flatten) ∧
      (∀ b ∈ bindings, ∃ pre kv post, scenarioEnvs = pre ++ kv :: post ∧
        newKey kv.1 = some b.1 ∧ b.2 = kv.2 ∧ ∀ e ∈ post, newKey e.1 ≠ some b.1) ∧
      (∀ kv ∈ scenarioEnvs, ∃ b ∈ bindings, newKey kv.1 = some b.1) :=
  (generate_values_verbatim "ConstGen".toList scenarioEnvs).1

/-! ## The exits of `main` -/

/-- C9: when the env file opens and parses to zero entries, `main` prints the
one message and ends with exit code 0, with no effect on any output file; and
whenever a run creates or writes a file, at least one entry was parsed. -/
theorem main_no_entries (sys : Sys) (fl : Flags) :
    (sys.openEnv fl.envFile = .ok () → sys.envs = .ok [] →
      main sys fl =
        ⟨[.printf "no envs to parse from file: %v - exiting\n" [.str fl.envFile]], .code 0⟩) ∧
    (∀ e ∈ (main sys fl).effects, e.isFile = true →
      ∃ envs, sys.envs = .ok envs ∧ envs ≠ []) := by
  constructor
  · intro ho he
    simp [main, modT_eq, funT_eq, ho, he]
  · intro e he hf
    simp only [main, modT_eq, funT_eq] at he
    split at he
    · simp at he; subst he; simp [Effect.isFile] at hf
    · split at he
      · simp at he; subst he; simp [Effect.isFile] at hf
      · rename_i envs henvs
        split at he
        · simp at he; subst he; simp [Effect.isFile] at hf
        · rename_i hne
          exact ⟨envs, henvs, fun h => hne (by simp [h])⟩

theorem main_no_entries_witness :
    (sysWith []).openEnv defaultFlags.envFile = .ok () ∧
    (sysWith []).envs = .ok [] ∧
    main (sysWith []) defaultFlags =
      ⟨[.printf "no envs to parse from file: %v - exiting\n" [.str defaultFlags.envFile]],
        .code 0⟩ ∧
    (∀ e ∈ (main (sysWith scenarioEnvs) defaultFlags).effects, e.isFile = true →
      ∃ envs, (sysWith scenarioEnvs).envs = .ok envs ∧ envs ≠ []) :=
  ⟨rfl, rfl, (main_no_entries (sysWith []) defaultFlags).1 rfl rfl,
    (main_no_entries (sysWith scenarioEnvs) defaultFlags).2⟩

end ElmConstGen
